import Mathlib

/-!
Shallow embedding of the zenoh core data model and the AckNack transport
message, translated from the sources under
src/zenoh/src/net/protocol/core/mod.rs and
src/zenoh/src/net/protocol/message/transport/acknack.rs, together with
theorems settling the stated properties of these definitions.

Rust strings are modelled as Lean String values; the Rust operations
starts_with, split_at, is_empty and len are modelled on the underlying
character list (the texts involved are ASCII, where Rust byte indices and
character indices coincide). Machine integers (u64 ZInt, u8 bytes, usize)
are modelled as Nat: none of the embedded code paths performs arithmetic
that can overflow a u64, and byte values produced by the codec are kept
below 256 by construction.
-/

/-- Model of Rust str::starts_with on the character list. -/
def strStartsWith (s v : String) : Bool := v.data.isPrefixOf s.data

/-- Model of Rust str::split_at(n).1: the tail after the first n characters. -/
def strDrop (s : String) (n : Nat) : String := String.mk (s.data.drop n)

/-- Model of Rust str::is_empty. -/
def strIsEmpty (s : String) : Bool := s.data.isEmpty

/-- Model of Rust str::len for the ASCII texts in scope (character count). -/
def strLen (s : String) : Nat := s.data.length

/-- CongestionControl (core/mod.rs): Block applies back-pressure, Drop
discards on a full buffer. -/
inductive CongestionControl where
  | Block
  | Drop
deriving DecidableEq, Repr

/-- FromStr for CongestionControl (core/mod.rs, impl FromStr): the string
"block" yields Block, "drop" yields Drop, anything else is an error whose
description names the invalid value; the ZError is modelled by its
description string (the quotes the Rust message puts around the two valid
values are elided from the modelled message text). -/
def CongestionControl.fromStr (s : String) : Except String CongestionControl :=
  if s = "block" then Except.ok CongestionControl.Block
  else if s = "drop" then Except.ok CongestionControl.Drop
  else Except.error ("Invalid CongestionControl: " ++ s ++ ". Valid values are: block | drop")

/-- NO_RESOURCE_ID (core/mod.rs). -/
def NO_RESOURCE_ID : Nat := 0

/-- ResKey (core/mod.rs): a resource key is a name, a numeric id, or an id
with a string suffix. ResourceId = ZInt = u64 is modelled as Nat. -/
inductive ResKey where
  | RName (name : String)
  | RId (rid : Nat)
  | RIdWithSuffix (rid : Nat) (sfx : String)
deriving DecidableEq, Repr

/-- From (ResourceId, str) for ResKey (core/mod.rs): an empty suffix gives
RId, a zero id with a non-empty suffix gives RName, otherwise
RIdWithSuffix. -/
def ResKey.fromTuple (rid : Nat) (sfx : String) : ResKey :=
  if strIsEmpty sfx then ResKey.RId rid
  else if rid = NO_RESOURCE_ID then ResKey.RName sfx
  else ResKey.RIdWithSuffix rid sfx

/-- From ResourceId for ResKey (core/mod.rs): any id, zero included, becomes
RId. -/
def ResKey.fromRid (rid : Nat) : ResKey := ResKey.RId rid

/-- From ResKey for (ResourceId, str) (core/mod.rs): the projection back to
an id and a suffix. -/
def ResKey.toTuple : ResKey → Nat × String
  | ResKey.RId rid => (rid, "")
  | ResKey.RName name => (NO_RESOURCE_ID, name)
  | ResKey.RIdWithSuffix rid sfx => (rid, sfx)

/-- MIMES registry (core/mod.rs, module encoding): the 21-entry array of
well-known MIME strings, index 0 being the empty string. -/
def MIMES : List String :=
  [ "",
    "application/octet-stream",
    "application/custom",
    "text/plain",
    "application/properties",
    "application/json",
    "application/sql",
    "application/integer",
    "application/float",
    "application/xml",
    "application/xhtml+xml",
    "application/x-www-form-urlencoded",
    "text/json",
    "text/html",
    "text/xml",
    "text/css",
    "text/csv",
    "text/javascript",
    "image/jpeg",
    "image/png",
    "image/gif" ]

/-- Encoding (core/mod.rs): an integer registry index (the Rust field named
prefix, here pfx since that word is a Lean keyword) plus a string suffix. -/
structure Encoding where
  pfx : Nat
  sfx : String
deriving DecidableEq, Repr

/-- Display for Encoding (core/mod.rs): when 0 < prefix < MIMES.len() the
string form is the registry entry followed by the suffix, otherwise the
suffix alone. -/
def Encoding.display (e : Encoding) : String :=
  if 0 < e.pfx ∧ e.pfx < MIMES.length then MIMES.getD e.pfx "" ++ e.sfx else e.sfx

/-- Loop of From str for Encoding (core/mod.rs): scan the registry with its
index, skip index 0, and on the first entry the string starts with return
that index with the remainder as suffix; fall through to prefix 0 with the
whole string. -/
def encodingOfStringLoop (s : String) : Nat → List String → Encoding
  | _, [] => { pfx := 0, sfx := s }
  | i, v :: rest =>
    if i != 0 && strStartsWith s v then { pfx := i, sfx := strDrop s (strLen v) }
    else encodingOfStringLoop s (i + 1) rest

/-- From str for Encoding (core/mod.rs): the registry scan started at
index 0. -/
def Encoding.ofString (s : String) : Encoding := encodingOfStringLoop s 0 MIMES

/-- Encoding::to_mime (core/mod.rs), modelled up to the external MIME
parser: prefix 0 hands the suffix to the parser, a prefix at most
MIMES.len() indexes the registry and hands registry entry plus suffix to
the parser, and a larger prefix is the unknown-prefix error. The registry
indexing is modelled as a checked access: the value none models the panic
of an out-of-bounds MIMES index, while some carries the returned ZResult,
whose ok payload is the string handed to the parser. -/
def Encoding.toMime (e : Encoding) : Option (Except String String) :=
  if e.pfx = 0 then some (Except.ok e.sfx)
  else if e.pfx ≤ MIMES.length then
    match MIMES.get? e.pfx with
    | some m => some (Except.ok (m ++ e.sfx))
    | none => none
  else some (Except.error ("Unknown encoding prefix " ++ toString e.pfx))

/-- Reliability (core/mod.rs) with its Default impl value. -/
inductive Reliability where
  | BestEffort
  | Reliable
deriving DecidableEq, Repr

/-- Default for Reliability (core/mod.rs). -/
def Reliability.defaultValue : Reliability := Reliability.Reliable

/-- SubMode (core/mod.rs) with its Default impl value. -/
inductive SubMode where
  | Push
  | Pull
deriving DecidableEq, Repr

/-- Default for SubMode (core/mod.rs). -/
def SubMode.defaultValue : SubMode := SubMode.Push

/-- Period (core/mod.rs): origin, period, duration ZInts. -/
structure Period where
  origin : Nat
  period : Nat
  duration : Nat
deriving DecidableEq, Repr

/-- SubInfo (core/mod.rs): reliability, mode and an optional period. -/
structure SubInfo where
  reliability : Reliability
  mode : SubMode
  period : Option Period
deriving DecidableEq, Repr

/-- Default for SubInfo (core/mod.rs): built from the component defaults and
no period. -/
def SubInfo.defaultValue : SubInfo :=
  { reliability := Reliability.defaultValue
    mode := SubMode.defaultValue
    period := none }

/-- ConsolidationMode (core/mod.rs). -/
inductive ConsolidationMode where
  | None
  | Lazy
  | Full
deriving DecidableEq, Repr

/-- QueryConsolidation (core/mod.rs): one ConsolidationMode per reply
stage. -/
structure QueryConsolidation where
  first_routers : ConsolidationMode
  last_router : ConsolidationMode
  reception : ConsolidationMode
deriving DecidableEq, Repr

/-- QueryConsolidation::none (core/mod.rs): every stage set to None. -/
def QueryConsolidation.nonePreset : QueryConsolidation :=
  { first_routers := ConsolidationMode.None
    last_router := ConsolidationMode.None
    reception := ConsolidationMode.None }

/-- Default for QueryConsolidation (core/mod.rs): Lazy, Lazy, Full. -/
def QueryConsolidation.defaultValue : QueryConsolidation :=
  { first_routers := ConsolidationMode.Lazy
    last_router := ConsolidationMode.Lazy
    reception := ConsolidationMode.Full }

/-- PeerId (core/mod.rs): a size and a byte array of capacity
PeerId::MAX_SIZE = 16; the array is modelled as a byte list, of which only
the first size entries are active. -/
structure PeerId where
  size : Nat
  id : List Nat
deriving DecidableEq, Repr

/-- PeerId::as_slice (core/mod.rs): the first size bytes of the stored
array. -/
def PeerId.asSlice (p : PeerId) : List Nat := p.id.take p.size

/-- PartialEq for PeerId (core/mod.rs): sizes equal and active slices
equal. -/
def PeerId.eqActive (a b : PeerId) : Bool :=
  a.size == b.size && a.asSlice == b.asSlice

/-- Uppercase hexadecimal digit of a value below 16 (0-9 then A-F). -/
def hexDigitUpper (n : Nat) : Char :=
  if n < 10 then Char.ofNat (48 + n) else Char.ofNat (55 + n)

/-- Model of hex::encode_upper from the external hex crate, which the Debug
impl for PeerId applies to as_slice: two uppercase hexadecimal digits per
byte, in order. -/
def hexEncodeUpper (bytes : List Nat) : String :=
  String.mk (bytes.foldr (fun b cs => hexDigitUpper (b / 16) :: hexDigitUpper (b % 16) :: cs) [])

/-- Debug and Display for PeerId (core/mod.rs): the uppercase hexadecimal
encoding of the active slice. -/
def PeerId.display (p : PeerId) : String := hexEncodeUpper p.asSlice

/-- Scan of the registry misses every entry: the From str loop falls through
to prefix 0 with the whole string, whatever non-zero index it starts at. -/
theorem encodingOfStringLoop_no_match (s : String) :
    ∀ (l : List String) (i : Nat), i ≠ 0 → (∀ v ∈ l, strStartsWith s v = false) →
    encodingOfStringLoop s i l = { pfx := 0, sfx := s } := by
  intro l
  induction l with
  | nil => intro i _ _; rfl
  | cons v rest ih =>
    intro i hi hall
    have hv : strStartsWith s v = false := hall v (by simp)
    have hrest : ∀ w ∈ rest, strStartsWith s w = false := by
      intro w hw; exact hall w (by simp [hw])
    have hstep : encodingOfStringLoop s i (v :: rest) = encodingOfStringLoop s (i + 1) rest := by
      simp [encodingOfStringLoop, hv]
    rw [hstep]
    exact ih (i + 1) (by omega) hrest

/-- Claim C1 (corrected statement): CongestionControl::from_str parses
case-sensitively: exactly "block" yields Block, exactly "drop" yields Drop,
and every other string, other casings of the two valid values included, is
an error carrying a descriptive message naming the invalid value. -/
theorem congestionControl_fromStr_exact :
    CongestionControl.fromStr "block" = Except.ok CongestionControl.Block ∧
    CongestionControl.fromStr "drop" = Except.ok CongestionControl.Drop ∧
    (∀ s : String, s ≠ "block" → s ≠ "drop" →
      CongestionControl.fromStr s =
        Except.error ("Invalid CongestionControl: " ++ s ++ ". Valid values are: block | drop")) := by
  refine ⟨rfl, rfl, ?_⟩
  intro s h1 h2
  simp [CongestionControl.fromStr, h1, h2]

/-- Claim C1, the claim as frozen is false: the casing "BLOCK" of "block"
does not parse to Block (it is rejected with an error). -/
theorem congestionControl_fromStr_BLOCK_rejected :
    CongestionControl.fromStr "BLOCK" ≠ Except.ok CongestionControl.Block := by
  simp [CongestionControl.fromStr]

/-- Claim C2 (corrected statement): constructing from (0, s) with s
non-empty yields RName s and constructing from (rid, "") yields RId rid for
every rid, the empty-suffix rule taking precedence; in particular the
constructions from (0, "") and from the plain resource id 0 both produce
RId 0, which is not rejected. -/
theorem resKey_normalization :
    ResKey.fromTuple 0 "x" = ResKey.RName "x" ∧
    ResKey.fromTuple 7 "" = ResKey.RId 7 ∧
    (∀ s : String, s ≠ "" → ResKey.fromTuple 0 s = ResKey.RName s) ∧
    (∀ rid : Nat, ResKey.fromTuple rid "" = ResKey.RId rid) ∧
    ResKey.fromTuple 0 "" = ResKey.RId 0 ∧
    ResKey.fromRid 0 = ResKey.RId 0 := by
  refine ⟨rfl, rfl, ?_, ?_, rfl, rfl⟩
  · intro s hs
    have hne : strIsEmpty s = false := by
      cases s with
      | mk data =>
        cases data with
        | nil => exact absurd rfl hs
        | cons c cs => rfl
    simp [ResKey.fromTuple, hne, NO_RESOURCE_ID]
  · intro rid
    simp [ResKey.fromTuple, strIsEmpty]

/-- Claim C2, the claim as frozen is false at the concrete input (0, ""):
the tuple construction produces the key RId 0, so Id(0) is not rejected. -/
theorem resKey_id0_produced : ResKey.fromTuple 0 "" = ResKey.RId 0 := rfl

/-- Claim C4: the string form of an Encoding is the registry entry at the
prefix followed by the suffix when 0 < prefix < 21, and the suffix alone
otherwise; prefix 5 with empty suffix renders "application/json", and the
registry at indices 1..20 is exactly the listed MIME strings in order. -/
theorem encoding_display_registry_form :
    (∀ e : Encoding, 0 < e.pfx → e.pfx < 21 → Encoding.display e = MIMES.getD e.pfx "" ++ e.sfx) ∧
    (∀ e : Encoding, e.pfx = 0 ∨ 21 ≤ e.pfx → Encoding.display e = e.sfx) ∧
    Encoding.display { pfx := 5, sfx := "" } = "application/json" ∧
    MIMES.length = 21 ∧
    MIMES.drop 1 =
      [ "application/octet-stream", "application/custom", "text/plain",
        "application/properties", "application/json", "application/sql",
        "application/integer", "application/float", "application/xml",
        "application/xhtml+xml", "application/x-www-form-urlencoded",
        "text/json", "text/html", "text/xml", "text/css", "text/csv",
        "text/javascript", "image/jpeg", "image/png", "image/gif" ] := by
  have hlen : MIMES.length = 21 := by decide
  refine ⟨?_, ?_, by decide, hlen, by decide⟩
  · intro e h0 h21
    simp [Encoding.display, hlen, h0, h21]
  · intro e h
    rcases h with h | h
    · simp [Encoding.display, h]
    · simp only [Encoding.display, hlen]
      rw [if_neg]
      omega

/-- Claim C5: Encoding::from splits its input at the first registry entry
(in registry order) the string starts with, with the remainder as suffix,
and maps a string starting with no registry entry to prefix 0 with the
whole string as suffix; the final conjunct records that no registry entry
is a prefix of another, so the first matching entry is also the unique,
hence longest, matching one. -/
theorem encoding_ofString_splits :
    Encoding.ofString "application/json" = { pfx := 5, sfx := "" } ∧
    Encoding.ofString "application/json;charset=utf-8" = { pfx := 5, sfx := ";charset=utf-8" } ∧
    Encoding.ofString "weird/thing" = { pfx := 0, sfx := "weird/thing" } ∧
    (∀ s : String, (∀ v ∈ MIMES.drop 1, strStartsWith s v = false) →
      Encoding.ofString s = { pfx := 0, sfx := s }) ∧
    ((MIMES.drop 1).Pairwise fun a b => ¬ List.IsPrefix a.data b.data ∧ ¬ List.IsPrefix b.data a.data) := by
  refine ⟨by decide, by decide, by decide, ?_, by decide⟩
  intro s hmiss
  have hstep : Encoding.ofString s = encodingOfStringLoop s 1 (MIMES.drop 1) := rfl
  rw [hstep]
  exact encodingOfStringLoop_no_match s (MIMES.drop 1) 1 (by omega) hmiss

/-- Claim C9: the registry branch of Encoding::to_mime is entered by every
prefix at most MIMES.len() = 21, but at the boundary prefix 21 the registry
access MIMES[21] is out of bounds (the valid indices end at 20), so to_mime
panics there instead of returning a ZResult: the modelled checked access
yields none, the panic marker. -/
theorem toMime_oob_at_21 :
    0 < (21 : Nat) ∧ (21 : Nat) ≤ MIMES.length ∧ ¬ ((21 : Nat) < MIMES.length) ∧
    Encoding.toMime { pfx := 21, sfx := "" } = none :=
  ⟨by decide, by decide, by decide, rfl⟩

/-- Claim C10: projecting the ResKey constructed from any (rid, suffix)
tuple back to a tuple is the identity, so the constructor's normalization
loses no information. -/
theorem resKey_tuple_roundtrip :
    ∀ (rid : Nat) (s : String), ResKey.toTuple (ResKey.fromTuple rid s) = (rid, s) := by
  intro rid s
  unfold ResKey.fromTuple
  split
  · next h =>
    cases s with
    | mk data =>
      cases data with
      | nil => rfl
      | cons c cs => simp [strIsEmpty] at h
  · split
    · next _ h2 => simp [ResKey.toTuple, NO_RESOURCE_ID, h2]
    · simp [ResKey.toTuple]

/-- Claim C7: PeerId equality holds exactly when the sizes agree and the
first size bytes agree, whatever is stored past size, and the display form
is the uppercase hexadecimal encoding of the first size bytes; the concrete
conjuncts exhibit equal ids differing past size, unequal ids differing only
in size, and an uppercase rendering. -/
theorem peerId_eq_and_display :
    (∀ a b : PeerId, PeerId.eqActive a b = true ↔
      (a.size = b.size ∧ a.id.take a.size = b.id.take b.size)) ∧
    (∀ a : PeerId, PeerId.display a = hexEncodeUpper (a.id.take a.size)) ∧
    PeerId.eqActive { size := 2, id := [1, 2, 3, 4] } { size := 2, id := [1, 2, 9, 9] } = true ∧
    PeerId.eqActive { size := 2, id := [1, 2, 3, 4] } { size := 3, id := [1, 2, 3, 4] } = false ∧
    PeerId.display { size := 2, id := [171, 205, 7, 7] } = "ABCD" := by
  refine ⟨?_, fun a => rfl, by decide, by decide, by decide⟩
  intro a b
  simp [PeerId.eqActive, PeerId.asSlice]

/-- Claim C8: the defaults of the core option types: SubInfo defaults to
Reliable, Push and no period; QueryConsolidation defaults to Lazy, Lazy,
Full; and the QueryConsolidation none preset sets all three stages to
None. -/
theorem core_defaults :
    SubInfo.defaultValue =
      { reliability := Reliability.Reliable, mode := SubMode.Push, period := none } ∧
    QueryConsolidation.defaultValue =
      { first_routers := ConsolidationMode.Lazy, last_router := ConsolidationMode.Lazy,
        reception := ConsolidationMode.Full } ∧
    QueryConsolidation.nonePreset =
      { first_routers := ConsolidationMode.None, last_router := ConsolidationMode.None,
        reception := ConsolidationMode.None } :=
  ⟨rfl, rfl, rfl⟩

/-- Modelled from the spec: read_zint of the varint codec, whose io module
is not among the staged sources (spec 4.1): little-endian 7-bit groups with
a continuation bit 0x80, failing when the input ends mid-integer or the
continuation bit is still set after 10 bytes; the first argument counts the
bytes still allowed, the second the bit position, the third the value read
so far. -/
def readZintAux : Nat → Nat → Nat → List Nat → Option (Nat × List Nat)
  | 0, _, _, _ => none
  | _ + 1, _, _, [] => none
  | fuel + 1, shift, acc, b :: rest =>
    if b < 128 then some (acc + b * 2 ^ shift, rest)
    else readZintAux fuel (shift + 7) (acc + b % 128 * 2 ^ shift) rest

/-- Modelled from the spec: read_zint (spec 4.1), at most 10 bytes. -/
def readZint (buf : List Nat) : Option (Nat × List Nat) := readZintAux 10 0 0 buf

/-- Modelled from the spec: write_zint (spec 4.1): one byte for a value
below 0x80, else the low 7 bits with the continuation bit 0x80 set (on a
value below 128 that is adding 128), recursing on the remaining bits. -/
def writeZint (v : Nat) : List Nat :=
  if h : v < 128 then [v]
  else (v % 128 + 128) :: writeZint (v / 128)
decreasing_by exact Nat.div_lt_self (by omega) (by omega)

/-- has_flag of the message module, which is not among the staged sources,
modelled from the spec: a header flag holds when the bitwise and of header
and flag is non-zero. -/
def hasFlag (header flag : Nat) : Bool := header &&& flag != 0

/-- AckNack::FLAG_Z (acknack.rs): 1 shifted left 7 times, 0x80. -/
def ackNackFlagZ : Nat := 128

/-- Modelled from the spec: the more bit of an extension header (spec 4.2
gives each extension a 1-byte header with a more bit; the extensions module
is not among the staged sources; the bit is taken to be the most
significant, 0x80). -/
def extMoreFlag : Nat := 128

/-- has_more of the extensions module, modelled from the spec: the more bit
of an extension header. -/
def hasMore (header : Nat) : Bool := hasFlag header extMoreFlag

/-- Modelled from the spec: reading one unknown extension (ZExt of
ZExtUnknown; the extensions module is not among the staged sources). Per
spec 4.2 and its design notes an unknown extension is skippable, its header
byte followed by a zint body length and that many body bytes, and it is
held as an opaque (header, bytes) pair; none on short read. -/
def zextUnknownRead (header : Nat) (buf : List Nat) : Option ((Nat × List Nat) × List Nat) :=
  match readZint buf with
  | none => none
  | some (len, rest) =>
    if len ≤ rest.length then some ((header, rest.take len), rest.drop len) else none

/-- Reading a zint consumes at least one byte of the buffer. -/
theorem readZintAux_consumes :
    ∀ (fuel shift acc : Nat) (buf : List Nat) (v : Nat) (rest : List Nat),
    readZintAux fuel shift acc buf = some (v, rest) → rest.length < buf.length := by
  intro fuel
  induction fuel with
  | zero => intro _ _ buf v rest h; simp [readZintAux] at h
  | succ n ih =>
    intro shift acc buf v rest h
    cases buf with
    | nil => simp [readZintAux] at h
    | cons b bs =>
      simp only [readZintAux] at h
      split at h
      · rw [Option.some_inj] at h
        rw [show rest = bs from congrArg Prod.snd h.symm]
        simp
      · have := ih _ _ _ _ _ h
        simp only [List.length_cons]
        omega

/-- Reading one unknown extension consumes at least one byte. -/
theorem zextUnknownRead_consumes (header : Nat) (buf : List Nat)
    (e : Nat × List Nat) (rest2 : List Nat)
    (h : zextUnknownRead header buf = some (e, rest2)) : rest2.length < buf.length := by
  unfold zextUnknownRead at h
  split at h
  · exact absurd h (by simp)
  · rename_i len rest hz
    have hlen : rest.length < buf.length := readZintAux_consumes _ _ _ _ _ _ hz
    split at h
    · rw [Option.some_inj] at h
      rw [show rest2 = rest.drop len from congrArg Prod.snd h.symm]
      have hd : (rest.drop len).length ≤ rest.length := by simp
      omega
    · exact absurd h (by simp)

/-- AckNackExts read loop (acknack.rs, AckNackExts::read): read an extension
header byte and the unknown extension under it, discarding the extension,
until a header clears its more bit; the result is the rest of the buffer;
none on short read. -/
def ackNackExtsReadAux (buf : List Nat) : Option (List Nat) :=
  match buf with
  | [] => none
  | header :: rest =>
    match h : zextUnknownRead header rest with
    | none => none
    | some (_, rest2) =>
      if hasMore header then ackNackExtsReadAux rest2 else some rest2
termination_by buf.length
decreasing_by
  have := zextUnknownRead_consumes header rest _ _ h
  simp only [List.length_cons]
  omega

/-- AckNackExts (acknack.rs): the placeholder extensions struct, storing
nothing. -/
structure AckNackExts where
deriving DecidableEq, Repr

/-- AckNack (acknack.rs): the message, holding only its extensions. -/
structure AckNack where
  exts : AckNackExts
deriving DecidableEq, Repr

/-- AckNackExts::is_empty (acknack.rs): always true. -/
def AckNackExts.isEmpty (_ : AckNackExts) : Bool := true

/-- AckNackExts::write (acknack.rs): writes nothing. -/
def AckNackExts.write (_ : AckNackExts) : List Nat := []

/-- AckNackExts::read (acknack.rs): the consuming loop paired with the
default (empty) extensions value. -/
def AckNackExts.read (buf : List Nat) : Option (AckNackExts × List Nat) :=
  (ackNackExtsReadAux buf).map (fun r => ({}, r))

/-- ZMessage::write for AckNack (acknack.rs): the header is the message id,
with FLAG_Z or-ed in when extensions are present, followed by the written
extensions. The numeric message id TransportId::AckNack.id() is not among
the staged sources and the spec gives it no value, so it is a parameter
here. -/
def AckNack.write (ackNackId : Nat) (msg : AckNack) : List Nat :=
  let hasExts := !(AckNackExts.isEmpty msg.exts)
  let header := if hasExts then ackNackId ||| ackNackFlagZ else ackNackId
  header :: (if hasExts then AckNackExts.write msg.exts else [])

/-- ZMessage::read for AckNack (acknack.rs): with FLAG_Z set in the already
consumed header the extensions are read from the buffer, otherwise they are
the default; the message and the unconsumed rest are returned. -/
def AckNack.read (header : Nat) (buf : List Nat) : Option (AckNack × List Nat) :=
  if hasFlag header ackNackFlagZ then
    match AckNackExts.read buf with
    | none => none
    | some (exts, rest) => some ({ exts := exts }, rest)
  else some ({ exts := {} }, buf)

/-- Wire form of one unknown extension in the modelled envelope: a header
byte whose more bit is set as stated, then the zint body length, then the
body. -/
def encodeExt (more : Bool) (header : Nat) (body : List Nat) : List Nat :=
  (header % 128 + if more then 128 else 0) :: (writeZint body.length ++ body)

/-- Wire form of a chain of unknown extensions: every header carries the
more bit except the last one. -/
def encodeExts : List (Nat × List Nat) → List Nat
  | [] => []
  | [(h, body)] => encodeExt false h body
  | (h, body) :: e :: rest => encodeExt true h body ++ encodeExts (e :: rest)

/-- Value below 128 has a clear 0x80 bit. -/
theorem land128_lo : ∀ x < 128, x &&& 128 = 0 := by decide

/-- Value below 128 plus 128 has the 0x80 bit set. -/
theorem land128_hi : ∀ x < 128, (x + 128) &&& 128 = 128 := by decide

/-- Round trip of the zint codec with the fuel generalized: reading back a
written value adds it, scaled by the current bit position, to the
accumulator and leaves the rest of the buffer. -/
theorem readZintAux_writeZint :
    ∀ (fuel v shift acc : Nat) (rest : List Nat), v < 2 ^ (7 * (fuel + 1)) →
    readZintAux (fuel + 1) shift acc (writeZint v ++ rest) = some (acc + v * 2 ^ shift, rest) := by
  intro fuel
  induction fuel with
  | zero =>
    intro v shift acc rest hv
    have h128 : v < 128 := by
      have : (2:Nat) ^ (7 * (0 + 1)) = 128 := by norm_num
      omega
    rw [writeZint, dif_pos h128]
    simp [readZintAux, h128]
  | succ n ih =>
    intro v shift acc rest hv
    by_cases h128 : v < 128
    · rw [writeZint, dif_pos h128]
      simp [readZintAux, h128]
    · rw [writeZint, dif_neg h128]
      have hb : ¬ (v % 128 + 128 < 128) := by omega
      simp only [List.cons_append, readZintAux, if_neg hb, List.append_eq]
      have hmod : (v % 128 + 128) % 128 = v % 128 := by omega
      rw [hmod]
      have hdiv : v / 128 < 2 ^ (7 * (n + 1)) := by
        have hpow : (2:Nat) ^ (7 * (n + 1 + 1)) = 2 ^ (7 * (n + 1)) * 128 := by
          rw [show 7 * (n + 1 + 1) = 7 * (n + 1) + 7 by ring, pow_add]
          norm_num
        rw [Nat.div_lt_iff_lt_mul (by norm_num)]
        omega
      rw [ih (v / 128) (shift + 7) (acc + v % 128 * 2 ^ shift) rest hdiv]
      have harith : acc + v % 128 * 2 ^ shift + v / 128 * 2 ^ (shift + 7) = acc + v * 2 ^ shift := by
        rw [pow_add]
        have hstep : v % 128 * 2 ^ shift + v / 128 * (2 ^ shift * 2 ^ 7) =
            (v % 128 + v / 128 * 2 ^ 7) * 2 ^ shift := by ring
        have hv2 : v % 128 + v / 128 * 2 ^ 7 = v := by
          have : (2:Nat) ^ 7 = 128 := by norm_num
          omega
        rw [Nat.add_assoc, hstep, hv2]
      rw [harith]

/-- Round trip of the zint codec: a written value below 2 to the 70 (so in
particular any u64) reads back exactly, leaving the rest of the buffer. -/
theorem readZint_writeZint (v : Nat) (rest : List Nat) (hv : v < 2 ^ 70) :
    readZint (writeZint v ++ rest) = some (v, rest) := by
  have h70 : v < 2 ^ (7 * (9 + 1)) := by norm_num at hv ⊢; omega
  have := readZintAux_writeZint 9 v 0 0 rest h70
  simpa [readZint] using this

/-- Reading one encoded unknown extension consumes exactly its envelope and
yields its header and body. -/
theorem zextUnknownRead_encodes (header : Nat) (body rest : List Nat)
    (hb : body.length < 2 ^ 70) :
    zextUnknownRead header (writeZint body.length ++ (body ++ rest)) =
      some ((header, body), rest) := by
  unfold zextUnknownRead
  rw [readZint_writeZint _ _ hb]
  show (if body.length ≤ (body ++ rest).length then
      some ((header, (body ++ rest).take body.length), (body ++ rest).drop body.length)
    else none) = some ((header, body), rest)
  have hle : body.length ≤ (body ++ rest).length := by simp
  rw [if_pos hle, List.take_left, List.drop_left]

/-- The extensions read loop consumes exactly an encoded non-empty chain of
unknown extensions and leaves the rest of the buffer. -/
theorem ackNackExtsReadAux_encodeExts :
    ∀ (chain : List (Nat × List Nat)) (rest : List Nat), chain ≠ [] →
    (∀ e ∈ chain, (Prod.snd e).length < 2 ^ 64) →
    ackNackExtsReadAux (encodeExts chain ++ rest) = some rest := by
  intro chain
  induction chain with
  | nil => intro rest h _; exact absurd rfl h
  | cons hd tl ih =>
    intro rest _ hbodies
    obtain ⟨h, body⟩ := hd
    have hb : body.length < 2 ^ 70 := by
      have := hbodies (h, body) (by simp)
      norm_num at this ⊢
      omega
    cases tl with
    | nil =>
      rw [show encodeExts [(h, body)] = encodeExt false h body from rfl]
      unfold encodeExt
      simp only [if_neg (by simp : ¬ False), Bool.false_eq_true, if_false,
        List.cons_append, List.append_assoc, Nat.add_zero]
      rw [ackNackExtsReadAux]
      split
      · rename_i hz
        rw [zextUnknownRead_encodes (h % 128) body rest hb] at hz
        cases hz
      · rename_i val rest2 hz
        rw [zextUnknownRead_encodes (h % 128) body rest hb] at hz
        rw [Option.some_inj] at hz
        have hrest2 : rest2 = rest := (congrArg Prod.snd hz).symm
        have hmore : hasMore (h % 128) = false := by
          have hlo := land128_lo (h % 128) (Nat.mod_lt _ (by norm_num))
          simp [hasMore, hasFlag, extMoreFlag, hlo]
        rw [hmore]
        simp [hrest2]
    | cons e2 tl2 =>
      rw [show encodeExts ((h, body) :: e2 :: tl2) = encodeExt true h body ++ encodeExts (e2 :: tl2) from rfl]
      unfold encodeExt
      simp only [if_pos, List.cons_append, List.append_assoc]
      rw [ackNackExtsReadAux]
      split
      · rename_i hz
        rw [zextUnknownRead_encodes (h % 128 + 128) body (encodeExts (e2 :: tl2) ++ rest) hb] at hz
        cases hz
      · rename_i val rest2 hz
        rw [zextUnknownRead_encodes (h % 128 + 128) body (encodeExts (e2 :: tl2) ++ rest) hb] at hz
        rw [Option.some_inj] at hz
        have hrest2 : rest2 = encodeExts (e2 :: tl2) ++ rest := (congrArg Prod.snd hz).symm
        have hmore : hasMore (h % 128 + 128) = true := by
          have hhi := land128_hi (h % 128) (Nat.mod_lt _ (by norm_num))
          simp [hasMore, hasFlag, extMoreFlag, hhi]
        rw [hmore]
        simp only [if_pos rfl]
        rw [hrest2]
        exact ih rest (by simp) (fun e he => hbodies e (by simp [he]))

/-- Reading from a buffer of continuation bytes only fails: either the
buffer or the 10-byte allowance runs out. -/
theorem readZintAux_all_cont :
    ∀ (fuel shift acc : Nat) (l : List Nat), (∀ b ∈ l, 128 ≤ b) →
    readZintAux fuel shift acc l = none := by
  intro fuel
  induction fuel with
  | zero => intro _ _ _ _; rfl
  | succ n ih =>
    intro shift acc l hl
    cases l with
    | nil => rfl
    | cons b rest =>
      have hb : 128 ≤ b := hl b (by simp)
      simp only [readZintAux, if_neg (by omega : ¬ b < 128)]
      exact ih _ _ rest (fun c hc => hl c (by simp [hc]))

/-- Every byte of a proper prefix of a written zint carries the
continuation bit (only the last written byte clears it). -/
theorem writeZint_proper_prefix_cont :
    ∀ (v : Nat) (p : List Nat), p <+: writeZint v → p.length < (writeZint v).length →
    ∀ b ∈ p, 128 ≤ b := by
  intro v
  induction v using Nat.strong_induction_on with
  | _ v ih =>
    intro p hp hlen b hb
    by_cases h128 : v < 128
    · rw [writeZint, dif_pos h128] at hp hlen
      simp only [List.length_cons, List.length_nil] at hlen
      have : p = [] := List.eq_nil_of_length_eq_zero (by omega)
      subst this
      simp at hb
    · rw [writeZint, dif_neg h128] at hp hlen
      cases p with
      | nil => simp at hb
      | cons c q =>
        obtain ⟨t, ht⟩ := hp
        simp only [List.cons_append, List.cons.injEq] at ht
        obtain ⟨hc, hq⟩ := ht
        simp only [List.mem_cons] at hb
        rcases hb with hb | hb
        · subst hc hb; omega
        · have hq2 : q <+: writeZint (v / 128) := ⟨t, hq⟩
          simp only [List.length_cons] at hlen
          exact ih (v / 128) (Nat.div_lt_self (by omega) (by omega)) q hq2 (by omega) b hb

/-- A prefix of an appended list is a prefix of the left part, or the left
part followed by a prefix of the right part. -/
theorem prefix_append_split {α : Type} {p l1 l2 : List α} (h : p <+: l1 ++ l2) :
    p <+: l1 ∨ ∃ q, p = l1 ++ q ∧ q <+: l2 := by
  have hp : p = (l1 ++ l2).take p.length := List.prefix_iff_eq_take.mp h
  by_cases hl : p.length ≤ l1.length
  · left
    rw [List.take_append_eq_append_take, Nat.sub_eq_zero_of_le hl, List.take_zero,
      List.append_nil] at hp
    rw [hp]
    exact List.take_prefix _ _
  · right
    rw [List.take_append_eq_append_take, List.take_of_length_le (by omega)] at hp
    exact ⟨l2.take (p.length - l1.length), hp, List.take_prefix _ _⟩

/-- When reading an unknown extension succeeds on a prefix of an encoded
extension followed by arbitrary tail bytes, the prefix covers the whole
envelope and the remainder is a prefix of the tail. -/
theorem zextUnknownRead_prefix_some (hdr : Nat) (body tail q : List Nat)
    (hq : q <+: writeZint body.length ++ (body ++ tail))
    (hb : body.length < 2 ^ 70)
    (val : Nat × List Nat) (rest2 : List Nat)
    (hz : zextUnknownRead hdr q = some (val, rest2)) :
    ∃ q3, q = writeZint body.length ++ (body ++ q3) ∧ q3 <+: tail ∧ rest2 = q3 := by
  rcases prefix_append_split hq with hcase | ⟨q2, hq2, hq2pre⟩
  · by_cases hproper : q.length < (writeZint body.length).length
    · exfalso
      have hcont := writeZint_proper_prefix_cont body.length q hcase hproper
      have hnone : readZint q = none := readZintAux_all_cont 10 0 0 q hcont
      unfold zextUnknownRead at hz
      rw [hnone] at hz
      exact absurd hz (by simp)
    · have hqeq : q = writeZint body.length := by
        have := List.prefix_iff_eq_take.mp hcase
        have hle := List.IsPrefix.length_le hcase
        rw [List.take_of_length_le (by omega)] at this
        exact this
      subst hqeq
      have hread : readZint (writeZint body.length) = some (body.length, []) := by
        have := readZint_writeZint body.length [] hb
        simpa using this
      unfold zextUnknownRead at hz
      rw [hread] at hz
      replace hz : (if body.length ≤ ([] : List Nat).length then
          some ((hdr, ([] : List Nat).take body.length), ([] : List Nat).drop body.length)
        else none) = some (val, rest2) := hz
      by_cases hlen0 : body.length ≤ ([] : List Nat).length
      · have hbody : body = [] := List.eq_nil_of_length_eq_zero (by simpa using hlen0)
        rw [if_pos hlen0] at hz
        rw [Option.some_inj] at hz
        refine ⟨[], ?_, List.nil_prefix, (congrArg Prod.snd hz.symm).trans (by simp)⟩
        simp [hbody]
      · rw [if_neg hlen0] at hz
        exact absurd hz (by simp)
  · subst hq2
    have hread : readZint (writeZint body.length ++ q2) = some (body.length, q2) :=
      readZint_writeZint body.length q2 hb
    unfold zextUnknownRead at hz
    rw [hread] at hz
    replace hz : (if body.length ≤ q2.length then
        some ((hdr, q2.take body.length), q2.drop body.length)
      else none) = some (val, rest2) := hz
    by_cases hlen : body.length ≤ q2.length
    · rw [if_pos hlen] at hz
      rw [Option.some_inj] at hz
      rcases prefix_append_split hq2pre with hcase2 | ⟨q3, hq3, hq3pre⟩
      · have hq2eq : q2 = body := by
          have := List.prefix_iff_eq_take.mp hcase2
          have hle2 := List.IsPrefix.length_le hcase2
          rw [List.take_of_length_le (by omega)] at this
          exact this
        subst hq2eq
        refine ⟨[], by simp, List.nil_prefix, ?_⟩
        have : rest2 = q2.drop q2.length := (congrArg Prod.snd hz.symm)
        simpa using this
      · subst hq3
        refine ⟨q3, rfl, hq3pre, ?_⟩
        have : rest2 = (body ++ q3).drop body.length := (congrArg Prod.snd hz.symm)
        rwa [List.drop_left] at this
    · rw [if_neg hlen] at hz
      exact absurd hz (by simp)

/-- Unfolding of the chain encoding at a cons: the head extension carries
the more bit exactly when the tail chain is non-empty. -/
theorem encodeExts_cons (h : Nat) (body : List Nat) (tl : List (Nat × List Nat)) :
    encodeExts ((h, body) :: tl) =
      (h % 128 + if tl.isEmpty then 0 else 128) ::
        (writeZint body.length ++ (body ++ encodeExts tl)) := by
  cases tl with
  | nil => simp [encodeExts, encodeExt]
  | cons e2 tl2 => simp [encodeExts, encodeExt]

/-- Short read: the extensions read loop fails on every proper prefix of an
encoded non-empty chain of unknown extensions. -/
theorem ackNackExtsReadAux_truncated :
    ∀ (chain : List (Nat × List Nat)), chain ≠ [] →
    (∀ e ∈ chain, (Prod.snd e).length < 2 ^ 64) →
    ∀ pre : List Nat, pre <+: encodeExts chain → pre.length < (encodeExts chain).length →
    ackNackExtsReadAux pre = none := by
  intro chain
  induction chain with
  | nil => intro h; exact absurd rfl h
  | cons hd tl ih =>
    intro _ hbodies pre hpre hlen
    obtain ⟨h, body⟩ := hd
    have hb : body.length < 2 ^ 70 := by
      have := hbodies (h, body) (by simp)
      norm_num at this ⊢
      omega
    rw [encodeExts_cons] at hpre hlen
    cases pre with
    | nil => simp [ackNackExtsReadAux]
    | cons c q =>
      obtain ⟨t, ht⟩ := hpre
      simp only [List.cons_append, List.cons.injEq] at ht
      obtain ⟨hc, hq⟩ := ht
      subst hc
      have hqpre : q <+: writeZint body.length ++ (body ++ encodeExts tl) := ⟨t, hq⟩
      simp only [List.length_cons] at hlen
      have hqlen : q.length < (writeZint body.length ++ (body ++ encodeExts tl)).length := by
        simpa using hlen
      rw [ackNackExtsReadAux]
      split
      · rfl
      · rename_i val rest2 hz
        obtain ⟨q3, hq3, hq3pre, hrest2⟩ :=
          zextUnknownRead_prefix_some _ body (encodeExts tl) q hqpre hb val rest2 hz
        subst hrest2
        cases htl : tl with
        | nil =>
          exfalso
          subst htl
          have hq3nil : rest2 = [] := List.prefix_nil.mp (by simpa [encodeExts] using hq3pre)
          subst hq3nil
          rw [hq3] at hqlen
          simp [encodeExts] at hqlen
        | cons e2 tl2 =>
          subst htl
          have hmore : hasMore (h % 128 + if (List.isEmpty (e2 :: tl2)) then 0 else 128) = true := by
            have hhi := land128_hi (h % 128) (Nat.mod_lt _ (by norm_num))
            simp [hasMore, hasFlag, extMoreFlag, hhi]
          rw [hmore]
          simp only [if_pos rfl]
          by_cases hq3proper : rest2.length < (encodeExts (e2 :: tl2)).length
          · exact ih (by simp) (fun e he => hbodies e (by simp [he])) rest2 hq3pre hq3proper
          · exfalso
            rw [hq3] at hqlen
            simp only [List.length_append] at hqlen
            have := List.IsPrefix.length_le hq3pre
            omega

/-- Claim C6: AckNack write emits a header byte whose low 5 bits are the
message id and whose Z flag 0x80 is set exactly when extensions follow;
read, under a header with Z set, consumes an encoded chain of unknown
extensions, which terminates at the extension header clearing its own more
bit, and returns some with the rest of the buffer; and read returns none on
a short read, that is on every proper prefix of such a chain. -/
theorem acknack_header_and_read :
    (∀ (ackNackId : Nat) (msg : AckNack), ackNackId < 32 →
      ∃ hd tl, AckNack.write ackNackId msg = hd :: tl ∧ hd % 32 = ackNackId ∧
        (hasFlag hd ackNackFlagZ = true ↔ AckNackExts.isEmpty msg.exts = false)) ∧
    (∀ (header : Nat) (chain : List (Nat × List Nat)) (rest : List Nat),
      hasFlag header ackNackFlagZ = true → chain ≠ [] →
      (∀ e ∈ chain, (Prod.snd e).length < 2 ^ 64) →
      AckNack.read header (encodeExts chain ++ rest) = some ({ exts := {} }, rest)) ∧
    (∀ (header : Nat) (chain : List (Nat × List Nat)) (pre : List Nat),
      hasFlag header ackNackFlagZ = true → chain ≠ [] →
      (∀ e ∈ chain, (Prod.snd e).length < 2 ^ 64) →
      pre <+: encodeExts chain → pre.length < (encodeExts chain).length →
      AckNack.read header pre = none) := by
  refine ⟨?_, ?_, ?_⟩
  · intro ackNackId msg hid
    refine ⟨ackNackId, [], rfl, Nat.mod_eq_of_lt hid, ?_⟩
    constructor
    · intro hf
      exfalso
      have hlo := land128_lo ackNackId (by omega)
      simp [hasFlag, ackNackFlagZ, hlo] at hf
    · intro hne
      simp [AckNackExts.isEmpty] at hne
  · intro header chain rest hzf hne hb
    unfold AckNack.read
    rw [if_pos hzf]
    have hexts : AckNackExts.read (encodeExts chain ++ rest) = some ({}, rest) := by
      unfold AckNackExts.read
      rw [ackNackExtsReadAux_encodeExts chain rest hne hb]
      rfl
    rw [hexts]
  · intro header chain pre hzf hne hb hpre hplen
    unfold AckNack.read
    rw [if_pos hzf]
    have hexts : AckNackExts.read pre = none := by
      unfold AckNackExts.read
      rw [ackNackExtsReadAux_truncated chain hne hb pre hpre hplen]
      rfl
    rw [hexts]

/-- Claim C3: at the failing input, an AckNack whose header has the Z flag
set followed by the well-formed unknown extension bytes 0x00 0x00 (header
with the more bit clear, then a zero body length), reading consumes and
discards the extension, and writing the resulting message back emits only
the bare header: the extension bytes are not reproduced, so unknown
extensions are not forwarded verbatim when relaying. -/
theorem acknack_relay_drops_extension :
    AckNack.read 128 [0, 0] = some ({ exts := {} }, []) ∧
    (∀ ackNackId : Nat, AckNack.write ackNackId { exts := {} } = [ackNackId]) := by
  constructor
  · have heq : encodeExts [(0, [])] ++ [] = [0, 0] := by
      simp [encodeExts, encodeExt, writeZint]
    have hread : AckNack.read 128 (encodeExts [(0, [])] ++ []) = some ({ exts := {} }, []) := by
      unfold AckNack.read
      rw [if_pos (by decide)]
      have hexts : AckNackExts.read (encodeExts [(0, [])] ++ []) = some ({}, []) := by
        unfold AckNackExts.read
        rw [ackNackExtsReadAux_encodeExts [(0, [])] [] (by simp) (by simp)]
        rfl
      rw [hexts]
    rw [← heq]
    exact hread
  · intro ackNackId
    rfl
